import Mathlib

/-!
Formal model of the gradient-extraction pipeline `extract_gradient_hex`
(src/src/lib.rs of Nikitf777/gradient-generator).

The function decodes an image, downsamples and blurs it, estimates a dominant
gradient orientation from Sobel derivatives via a circular mean of doubled
angles, projects pixel coordinates on the dominant axis, and averages the
colors of the two extreme projection bands into `#rrggbb` strings.

Machine floating-point scalars (`f64`/`f32`) are modelled as real numbers.
Pixel buffers (OpenCV `Mat` data) are modelled as flat row-major lists, as the
Rust code itself accesses them through `data_typed` with indices `y*cols + x`.
The imaging primitives that the repository delegates to OpenCV (decode,
resize, blur, Sobel, cart_to_polar, threshold, count_non_zero, min_max_loc,
in_range, masked mean) are outside the repository's sources; where a claim
needs their output behaviour they are modelled from the spec, and the
corresponding definitions say so in their doc comments.
-/

namespace GradientGen

/-- Real-valued `atan2 y x`, the angle of the point `(x, y)`, modelling
`f64::atan2`.  Expressed through the complex argument, which has the same
branch behaviour. -/
noncomputable def atan2 (y x : ℝ) : ℝ := Complex.arg ⟨x, y⟩

/-- Model of `f64::rem_euclid` for a positive modulus: `x - m * ⌊x / m⌋`. -/
noncomputable def remEuclid (x m : ℝ) : ℝ := x - m * ⌊x / m⌋

/-- Flat row-major index `y * cols + x`, exactly as computed by the source in
its two pixel loops (`let idx = y * cols + x;`). -/
def flatIdx (cols x y : ℕ) : ℕ := y * cols + x

/-- Modelled from the spec: the external non-zero counting primitive
(`core::count_non_zero`) returns the number of non-zero entries of a
single-channel buffer. -/
def countNonZero (l : List ℕ) : ℕ := (l.filter (fun v => v ≠ 0)).length

/-- Modelled from the spec: the max half of the external min/max search
primitive (`core::min_max_loc`); on a non-empty buffer it returns the global
maximum. -/
noncomputable def listMax (l : List ℝ) : ℝ := l.foldl max (l.headD 0)

/-- Modelled from the spec: the min half of the external min/max search
primitive (`core::min_max_loc`); on a non-empty buffer it returns the global
minimum. -/
noncomputable def listMin (l : List ℝ) : ℝ := l.foldl min (l.headD 0)

/-- Modelled from the spec: the external thresholding primitive
(`imgproc::threshold` with `THRESH_BINARY`, followed by the conversion to
`CV_8UC1`): entries strictly above the threshold become 255, the rest 0. -/
noncomputable def thresholdMask (mag : List ℝ) (thresh : ℝ) : List ℕ :=
  mag.map (fun m => if thresh < m then 255 else 0)

/-- Strong-gradient mask of the source: magnitudes are thresholded at
`0.1 * max_val` (lines 92-112). -/
noncomputable def validMask (mag : List ℝ) : List ℕ :=
  thresholdMask mag (0.1 * listMax mag)

/-- Body of the circular-mean accumulation loop (lines 127-138): when the mask
entry at the flat index is non-zero, add `cos (2a)` and `sin (2a)` of the
angle entry to the running sums and bump the count. -/
noncomputable def stepIdx (mask : List ℕ) (angleF : List ℝ) (s : ℝ × ℝ × ℕ) (i : ℕ) :
    ℝ × ℝ × ℕ :=
  if mask.getD i 0 ≠ 0 then
    (s.1 + Real.cos (2 * angleF.getD i 0), s.2.1 + Real.sin (2 * angleF.getD i 0), s.2.2 + 1)
  else s

/-- The nested `for y in 0..rows { for x in 0..cols { ... } }` accumulation of
`(sum_cos, sum_sin, count)` from lines 123-138 of the source. -/
noncomputable def circStats (rows cols : ℕ) (mask : List ℕ) (angleF : List ℝ) : ℝ × ℝ × ℕ :=
  (List.range rows).foldl
    (fun s y => (List.range cols).foldl (fun s x => stepIdx mask angleF s (flatIdx cols x y)) s)
    (0, 0, 0)

/-- The `dominant_angle` computation of lines 115-147: `0` when fewer than 10
pixels pass the mask, otherwise the circular mean `0.5 * atan2 avg_sin avg_cos`
with a `0` fallback when the loop counted nothing. -/
noncomputable def dominantAngle (rows cols nonZeroCount : ℕ) (mask : List ℕ)
    (angleF : List ℝ) : ℝ :=
  if nonZeroCount < 10 then 0
  else
    let s := circStats rows cols mask angleF
    if s.2.2 = 0 then 0
    else 0.5 * atan2 (s.2.1 / (s.2.2 : ℝ)) (s.1 / (s.2.2 : ℝ))

/-- Lines 149-152 of the source: `dx = cos d`, `dy = sin d`,
`cartesian = atan2 (-dy) dx`, and the reported angle
`(90 - cartesian.to_degrees()).rem_euclid(360)`. -/
noncomputable def compassFromDominant (d : ℝ) : ℝ :=
  remEuclid (90 - atan2 (-Real.sin d) (Real.cos d) * (180 / Real.pi)) 360

/-- One row of a row-major grid buffer: the values `f y x` for `x < cols`. -/
def rowBuf {α : Type} (cols : ℕ) (f : ℕ → ℕ → α) (y : ℕ) : List α :=
  (List.range cols).map (f y)

/-- Row-major flat buffer filled by a nested `for y { for x { buf[y*cols+x] = f y x } }`
loop: rows are laid out in increasing `y`, each row in increasing `x`. -/
def gridBuf {α : Type} (rows cols : ℕ) (f : ℕ → ℕ → α) : List α :=
  (List.range rows).foldl (fun acc y => acc ++ rowBuf cols f y) []

/-- The projection buffer of lines 157-168 of the source:
`t_data[y*cols + x] = x * dx + y * dy`. -/
noncomputable def tField (rows cols : ℕ) (dx dy : ℝ) : List ℝ :=
  gridBuf rows cols (fun y x => (x : ℝ) * dx + (y : ℝ) * dy)

/-- All flat indices `y*cols + x` of the grid, in the order the loops visit
them. -/
def gridIndices (rows cols : ℕ) : List ℕ :=
  gridBuf rows cols (fun y x => flatIdx cols x y)

/-- The flat indices of the pixels whose mask entry is non-zero — the "masked
pixels" of the spec. -/
def maskedIndices (rows cols : ℕ) (mask : List ℕ) : List ℕ :=
  (gridIndices rows cols).filter (fun i => mask.getD i 0 ≠ 0)

/-- The gradient-estimation stage of the pipeline: the dominant angle obtained
from the magnitude buffer (via the strong-gradient mask and its non-zero
count) and the angle buffer. -/
noncomputable def pipelineDominant (rows cols : ℕ) (mag angleF : List ℝ) : ℝ :=
  dominantAngle rows cols (countNonZero (validMask mag)) (validMask mag) angleF

/-- The projection buffer of the pipeline, built with the raw direction
`(cos d, sin d)` of the dominant angle (lines 149-150 and 157-168). -/
noncomputable def pipelineT (rows cols : ℕ) (mag angleF : List ℝ) : List ℝ :=
  tField rows cols (Real.cos (pipelineDominant rows cols mag angleF))
    (Real.sin (pipelineDominant rows cols mag angleF))

/-- Line 181 of the source: `threshold_low = min_val + 0.15 * (max_val - min_val)`. -/
noncomputable def lowThreshold (t : List ℝ) : ℝ :=
  listMin t + 0.15 * (listMax t - listMin t)

/-- Line 182 of the source: `threshold_high = max_val - 0.15 * (max_val - min_val)`. -/
noncomputable def highThreshold (t : List ℝ) : ℝ :=
  listMax t - 0.15 * (listMax t - listMin t)

/-- Modelled from the spec: `core::in_range` with lower bound `-∞` — the mask
of entries `≤` the upper bound (the comparison is inclusive). -/
noncomputable def lowerMask (t : List ℝ) (lo : ℝ) : List ℕ :=
  t.map (fun v => if v ≤ lo then 255 else 0)

/-- Modelled from the spec: `core::in_range` with upper bound `+∞` — the mask
of entries `≥` the lower bound (the comparison is inclusive). -/
noncomputable def upperMask (t : List ℝ) (hi : ℝ) : List ℕ :=
  t.map (fun v => if hi ≤ v then 255 else 0)

/-- The `start_mask` of lines 184-190. -/
noncomputable def pipelineStartMask (rows cols : ℕ) (mag angleF : List ℝ) : List ℕ :=
  lowerMask (pipelineT rows cols mag angleF) (lowThreshold (pipelineT rows cols mag angleF))

/-- The `end_mask` of lines 192-198. -/
noncomputable def pipelineEndMask (rows cols : ℕ) (mag angleF : List ℝ) : List ℕ :=
  upperMask (pipelineT rows cols mag angleF) (highThreshold (pipelineT rows cols mag angleF))

/-- Modelled from the spec: one channel of the external masked-mean primitive
(`core::mean(src, mask)`): the sum of the channel over the pixels whose mask
entry is non-zero, divided by the number of non-zero mask entries. -/
noncomputable def maskedMean (vals : List ℝ) (mask : List ℕ) : ℝ :=
  ((((vals.zip mask).filter (fun p => p.2 ≠ 0)).map Prod.fst).sum) / (countNonZero mask : ℝ)

/-- Lines 202-204 of the source: `mean_val[c].clamp(0.0, 255.0).round() as u8`.
`f64::round` rounds half away from zero, which on the clamped non-negative
range coincides with rounding half up. -/
noncomputable def clampRound (x : ℝ) : ℕ :=
  (round (max 0 (min x 255))).toNat

/-- The `get_avg_color` closure of lines 200-206: per-channel masked mean of
the (b, g, r)-ordered pixels, clamped, rounded and narrowed to `u8`. -/
noncomputable def getAvgColor (pixels : List (ℕ × ℕ × ℕ)) (mask : List ℕ) : ℕ × ℕ × ℕ :=
  (clampRound (maskedMean (pixels.map (fun p => (p.1 : ℝ))) mask),
   clampRound (maskedMean (pixels.map (fun p => (p.2.1 : ℝ))) mask),
   clampRound (maskedMean (pixels.map (fun p => (p.2.2 : ℝ))) mask))

/-- Lines 208-218 of the source: the band color is the masked average when the
band mask has a non-zero entry, and black `(0, 0, 0)` otherwise. -/
noncomputable def bandColor (pixels : List (ℕ × ℕ × ℕ)) (mask : List ℕ) : ℕ × ℕ × ℕ :=
  if 0 < countNonZero mask then getAvgColor pixels mask else (0, 0, 0)

/-- One lowercase hexadecimal digit, as printed by Rust's `{:x}` formatting. -/
def hexDigit (n : ℕ) : Char :=
  match n with
  | 0 => '0' | 1 => '1' | 2 => '2' | 3 => '3' | 4 => '4'
  | 5 => '5' | 6 => '6' | 7 => '7' | 8 => '8' | 9 => '9'
  | 10 => 'a' | 11 => 'b' | 12 => 'c' | 13 => 'd' | 14 => 'e'
  | _ => 'f'

/-- Rust's `{:02x}` formatting of a `u8` value: exactly two lowercase hex
digits. -/
def toHex2 (n : ℕ) : String := String.mk [hexDigit (n / 16), hexDigit (n % 16)]

/-- Lines 220-224 of the source: `format!("#{:02x}{:02x}{:02x}", v[2], v[1], v[0])`
on a `(b, g, r)` triple — red first, then green, then blue. -/
def hexColor (bgr : ℕ × ℕ × ℕ) : String :=
  "#" ++ toHex2 bgr.2.2 ++ toHex2 bgr.2.1 ++ toHex2 bgr.1

/-- The start-band color of the pipeline. -/
noncomputable def startColor (rows cols : ℕ) (mag angleF : List ℝ)
    (pixels : List (ℕ × ℕ × ℕ)) : ℕ × ℕ × ℕ :=
  bandColor pixels (pipelineStartMask rows cols mag angleF)

/-- The end-band color of the pipeline. -/
noncomputable def endColor (rows cols : ℕ) (mag angleF : List ℝ)
    (pixels : List (ℕ × ℕ × ℕ)) : ℕ × ℕ × ℕ :=
  bandColor pixels (pipelineEndMask rows cols mag angleF)

/-- The core of `extract_gradient_hex` after the external derivative stage:
from the gradient magnitude buffer, the gradient angle buffer and the blurred
(b, g, r) pixel buffer (all `rows × cols`, row-major), produce
`(start_color, end_color, angle)` exactly as lines 92-230 of the source do. -/
noncomputable def extractCore (rows cols : ℕ) (mag angleF : List ℝ)
    (pixels : List (ℕ × ℕ × ℕ)) : String × String × ℝ :=
  (hexColor (startColor rows cols mag angleF pixels),
   hexColor (endColor rows cols mag angleF pixels),
   compassFromDominant (pipelineDominant rows cols mag angleF))

/-- Error kinds of the spec's §7 taxonomy that the entry sequence of the
source (lines 20-29) can produce. -/
inductive ExtractError
  | invalidInput
  | decodeError
  | emptyImage
deriving DecidableEq

/-- A decoded image as far as the entry validation is concerned: its
dimensions. -/
structure DecodedImage where
  rows : ℕ
  cols : ℕ

/-- Entry sequence of `extract_gradient_hex` (lines 20-29): a path that is not
valid UTF-8 fails with the invalid-input error (`context("Not a valid filepath")`),
a failing decode fails with the decode error (`context("Failed to read image")`),
and a decoded image with no pixels fails with the empty-image error
(`bail!("Image is empty ...")`).  The decode primitive itself is outside the
repository; modelled from the spec as an oracle that returns `none` exactly on
undecodable data. -/
def extractFront (path : Option String) (decode : String → Option DecodedImage) :
    Except ExtractError DecodedImage :=
  match path with
  | none => .error .invalidInput
  | some p =>
    match decode p with
    | none => .error .decodeError
    | some img => if img.rows * img.cols = 0 then .error .emptyImage else .ok img

/-- Line 36 of the source: the resize target
`Size::new(RESIZE_DIM, RESIZE_DIM * size.height / size.width)` with
`RESIZE_DIM = 100`.  Rust's `i32` division truncates; on the positive
dimensions of a non-empty image it coincides with natural-number division. -/
def resizeSize (width height : ℕ) : ℕ × ℕ := (100, 100 * height / width)

/-- Written from the spec's words for the refinement comparison of C3: height
`round (100 * H / W)`, rounding to the nearest integer. -/
def specResizeHeight (width height : ℕ) : ℤ := round ((100 * height : ℚ) / width)

/-- Written from the spec's words for the refinement comparison of C6: if
fewer than 10 pixels pass the mask the dominant angle is 0, otherwise it is
half of `atan2 avg_sin avg_cos`, the averages being the sums of `sin (2a)` and
`cos (2a)` over exactly the masked pixels divided by the masked pixel count. -/
noncomputable def specDominantAngle (rows cols : ℕ) (mask : List ℕ) (angleF : List ℝ) : ℝ :=
  if (maskedIndices rows cols mask).length < 10 then 0
  else
    0.5 * atan2
      (((maskedIndices rows cols mask).map (fun i => Real.sin (2 * angleF.getD i 0))).sum /
        ((maskedIndices rows cols mask).length : ℝ))
      (((maskedIndices rows cols mask).map (fun i => Real.cos (2 * angleF.getD i 0))).sum /
        ((maskedIndices rows cols mask).length : ℝ))

/-- Written from the spec's words for the refinement comparison of C7:
`(dx, dy) = (cos d, sin d)`, then `atan2 (-dy) dx` converted to degrees, then
`90` minus that value, reduced modulo `360`. -/
noncomputable def specCompassAngle (d : ℝ) : ℝ :=
  remEuclid (90 - atan2 (-Real.sin d) (Real.cos d) * (180 / Real.pi)) 360

/-- Written from the spec's words for the refinement comparison of C9: the
pixels selected by a mask — those whose mask entry is non-zero. -/
def selectedPixels (pixels : List (ℕ × ℕ × ℕ)) (mask : List ℕ) : List (ℕ × ℕ × ℕ) :=
  ((pixels.zip mask).filter (fun p => p.2 ≠ 0)).map Prod.fst

/-- Written from the spec's words for the refinement comparison of C9: the
arithmetic mean of one channel over the pixels selected by the mask. -/
noncomputable def specMeanChannel (ch : ℕ × ℕ × ℕ → ℕ) (pixels : List (ℕ × ℕ × ℕ))
    (mask : List ℕ) : ℝ :=
  (((selectedPixels pixels mask).map (fun p => (ch p : ℝ))).sum) /
    ((selectedPixels pixels mask).length : ℝ)

/-- Decidable form of the output format `^#[0-9a-f]{6}$`: a lowercase hex
digit. -/
def isLowerHexDigit (c : Char) : Bool :=
  ('0' ≤ c && c ≤ '9') || ('a' ≤ c && c ≤ 'f')

/-- Decidable form of the output format `^#[0-9a-f]{6}$`: seven characters,
a leading `#`, and six lowercase hex digits. -/
def isHexColor (s : String) : Bool :=
  s.data.length == 7 && s.data.headD ' ' == '#' && (s.data.drop 1).all isLowerHexDigit

/-! ## Helper lemmas -/

theorem remEuclid_nonneg_lt (x : ℝ) : 0 ≤ remEuclid x 360 ∧ remEuclid x 360 < 360 := by
  have h1 : remEuclid x 360 = 360 * Int.fract (x / 360) := by
    rw [remEuclid, Int.fract]
    ring
  have h2 := Int.fract_nonneg (x / 360)
  have h3 := Int.fract_lt_one (x / 360)
  constructor
  · rw [h1]; positivity
  · rw [h1]; nlinarith

theorem flatIdx_lt (cols x y rows : ℕ) (hx : x < cols) (hy : y < rows) :
    flatIdx cols x y < rows * cols := by
  have h1 : flatIdx cols x y < (y + 1) * cols := by
    rw [flatIdx, Nat.succ_mul]
    omega
  have h2 : (y + 1) * cols ≤ rows * cols := Nat.mul_le_mul_right cols hy
  omega

theorem gridBuf_succ {α : Type} (rows cols : ℕ) (f : ℕ → ℕ → α) :
    gridBuf (rows + 1) cols f = gridBuf rows cols f ++ rowBuf cols f rows := by
  simp [gridBuf, List.range_succ, List.foldl_append]

theorem gridBuf_length {α : Type} (rows cols : ℕ) (f : ℕ → ℕ → α) :
    (gridBuf rows cols f).length = rows * cols := by
  induction rows with
  | zero => simp [gridBuf]
  | succ r ih =>
    rw [gridBuf_succ, List.length_append, ih, rowBuf, List.length_map, List.length_range,
      Nat.succ_mul]

theorem gridBuf_getElem? {α : Type} (rows cols x y : ℕ) (f : ℕ → ℕ → α)
    (hx : x < cols) (hy : y < rows) :
    (gridBuf rows cols f)[y * cols + x]? = some (f y x) := by
  induction rows with
  | zero => omega
  | succ r ih =>
    rw [gridBuf_succ, List.getElem?_append]
    rcases Nat.lt_succ_iff_lt_or_eq.mp hy with hy' | hy'
    · have hlt : y * cols + x < (gridBuf r cols f).length := by
        rw [gridBuf_length]
        have := flatIdx_lt cols x y r hx hy'
        rw [flatIdx] at this
        omega
      rw [if_pos hlt]
      exact ih hy'
    · subst hy'
      have hge : ¬ (y * cols + x < (gridBuf y cols f).length) := by
        rw [gridBuf_length]
        omega
      rw [if_neg hge, gridBuf_length]
      have hidx : y * cols + x - y * cols = x := by omega
      rw [hidx, rowBuf, List.getElem?_map, List.getElem?_range hx]
      rfl

theorem gridBuf_getD {α : Type} (rows cols x y : ℕ) (f : ℕ → ℕ → α) (d : α)
    (hx : x < cols) (hy : y < rows) :
    (gridBuf rows cols f).getD (y * cols + x) d = f y x := by
  rw [List.getD_eq_getElem?_getD, gridBuf_getElem? rows cols x y f hx hy]
  rfl

theorem mem_gridBuf {α : Type} (rows cols x y : ℕ) (f : ℕ → ℕ → α)
    (hx : x < cols) (hy : y < rows) : f y x ∈ gridBuf rows cols f := by
  have h := gridBuf_getElem? rows cols x y f hx hy
  obtain ⟨hn, he⟩ := List.getElem?_eq_some.mp h
  rw [← he]
  exact List.getElem_mem hn

theorem getD_map_of_lt {α β : Type} (l : List α) (f : α → β) (i : ℕ) (h : i < l.length)
    (d : β) (d' : α) : (l.map f).getD i d = f (l.getD i d') := by
  rw [List.getD_eq_getElem?_getD, List.getD_eq_getElem?_getD, List.getElem?_map,
    List.getElem?_eq_getElem h]
  rfl

theorem circStats_eq_foldl (rows cols : ℕ) (mask : List ℕ) (angleF : List ℝ) :
    circStats rows cols mask angleF =
      (gridIndices rows cols).foldl (stepIdx mask angleF) (0, 0, 0) := by
  induction rows with
  | zero => rfl
  | succ r ih =>
    rw [circStats, List.range_succ, List.foldl_append, gridIndices, gridBuf_succ,
      List.foldl_append, ← gridIndices]
    rw [show (List.range r).foldl
        (fun s y => (List.range cols).foldl (fun s x => stepIdx mask angleF s (flatIdx cols x y)) s)
        (0, 0, 0) = circStats r cols mask angleF from rfl, ih]
    simp [rowBuf, List.foldl_map]

theorem foldl_stepIdx (mask : List ℕ) (angleF : List ℝ) (idxs : List ℕ) (s : ℝ × ℝ × ℕ) :
    idxs.foldl (stepIdx mask angleF) s =
      (s.1 + ((idxs.filter (fun i => mask.getD i 0 ≠ 0)).map
          (fun i => Real.cos (2 * angleF.getD i 0))).sum,
       s.2.1 + ((idxs.filter (fun i => mask.getD i 0 ≠ 0)).map
          (fun i => Real.sin (2 * angleF.getD i 0))).sum,
       s.2.2 + (idxs.filter (fun i => mask.getD i 0 ≠ 0)).length) := by
  induction idxs generalizing s with
  | nil => simp
  | cons i t ih =>
    rw [List.foldl_cons, ih]
    by_cases h : mask.getD i 0 ≠ 0
    · have hf : List.filter (fun i => decide (mask.getD i 0 ≠ 0)) (i :: t) =
          i :: List.filter (fun i => decide (mask.getD i 0 ≠ 0)) t := by
        rw [List.filter_cons, if_pos (by simpa using h)]
      rw [hf]
      simp only [List.map_cons, List.sum_cons, List.length_cons, stepIdx, if_pos h,
        Prod.mk.injEq]
      refine ⟨by ring, by ring, by omega⟩
    · have hf : List.filter (fun i => decide (mask.getD i 0 ≠ 0)) (i :: t) =
          List.filter (fun i => decide (mask.getD i 0 ≠ 0)) t := by
        rw [List.filter_cons, if_neg (by simpa using h)]
      rw [hf]
      simp only [stepIdx, if_neg h]

theorem circStats_eq (rows cols : ℕ) (mask : List ℕ) (angleF : List ℝ) :
    circStats rows cols mask angleF =
      (((maskedIndices rows cols mask).map (fun i => Real.cos (2 * angleF.getD i 0))).sum,
       ((maskedIndices rows cols mask).map (fun i => Real.sin (2 * angleF.getD i 0))).sum,
       (maskedIndices rows cols mask).length) := by
  rw [circStats_eq_foldl, foldl_stepIdx]
  simp [maskedIndices]

theorem gridIndices_eq_range (rows cols : ℕ) :
    gridIndices rows cols = List.range (rows * cols) := by
  induction rows with
  | zero => simp [gridIndices, gridBuf]
  | succ r ih =>
    rw [gridIndices, gridBuf_succ, ← gridIndices, ih, Nat.succ_mul, List.range_add]
    congr 1

theorem length_filter_range_getD (l : List ℕ) :
    ((List.range l.length).filter (fun i => l.getD i 0 ≠ 0)).length = countNonZero l := by
  induction l with
  | nil => simp [countNonZero]
  | cons a t ih =>
    have hcomp : (fun i => decide ((a :: t).getD i 0 ≠ 0)) ∘ Nat.succ =
        (fun i => decide (t.getD i 0 ≠ 0)) := by
      funext i
      simp [Function.comp, Nat.succ_eq_add_one, List.getD_cons_succ]
    have hmap : (((List.range t.length).map Nat.succ).filter
        (fun i => decide ((a :: t).getD i 0 ≠ 0))).length =
        ((List.range t.length).filter (fun i => decide (t.getD i 0 ≠ 0))).length := by
      rw [List.filter_map, hcomp, List.length_map]
    rw [List.length_cons, List.range_succ_eq_map, List.filter_cons, countNonZero,
      List.filter_cons]
    by_cases h : a ≠ 0
    · rw [if_pos (by simpa using h), if_pos (by simpa using h), List.length_cons,
        List.length_cons, hmap, ih, countNonZero]
    · push_neg at h
      subst h
      rw [if_neg (by simp), if_neg (by simp), hmap, ih, countNonZero]

theorem maskedIndices_length (rows cols : ℕ) (mask : List ℕ) (hm : mask.length = rows * cols) :
    (maskedIndices rows cols mask).length = countNonZero mask := by
  rw [maskedIndices, gridIndices_eq_range, ← hm, length_filter_range_getD]

theorem ite_ne_zero_iff (c : Prop) [Decidable c] : (if c then (255 : ℕ) else 0) ≠ 0 ↔ c := by
  by_cases h : c <;> simp [h]

theorem hexDigit_lower (n : ℕ) (h : n < 16) : isLowerHexDigit (hexDigit n) = true := by
  have hall : ∀ m, m < 16 → isLowerHexDigit (hexDigit m) = true := by decide
  exact hall n h

theorem isHexColor_hexColor (b g r : ℕ) (hb : b ≤ 255) (hg : g ≤ 255) (hr : r ≤ 255) :
    isHexColor (hexColor (b, g, r)) = true := by
  have hdata : (hexColor (b, g, r)).data =
      ['#', hexDigit (r / 16), hexDigit (r % 16), hexDigit (g / 16), hexDigit (g % 16),
        hexDigit (b / 16), hexDigit (b % 16)] := by
    simp [hexColor, toHex2, String.data_append]
  rw [isHexColor, hdata]
  simp only [List.length_cons, List.length_nil, List.headD_cons, List.drop_succ_cons,
    List.drop_zero, List.all_cons, List.all_nil]
  rw [hexDigit_lower (r / 16) (by omega), hexDigit_lower (r % 16) (by omega),
    hexDigit_lower (g / 16) (by omega), hexDigit_lower (g % 16) (by omega),
    hexDigit_lower (b / 16) (by omega), hexDigit_lower (b % 16) (by omega)]
  rfl

theorem clampRound_le_255 (x : ℝ) : clampRound x ≤ 255 := by
  rw [clampRound]
  have h1 : max 0 (min x 255) ≤ 255 := max_le (by norm_num) (min_le_right x 255)
  have h2 : round (max 0 (min x 255)) ≤ 255 := by
    rw [round_eq]
    have h3 : max 0 (min x 255) + 1 / 2 ≤ (255.5 : ℝ) := by linarith
    calc ⌊max 0 (min x 255) + 1 / 2⌋ ≤ ⌊(255.5 : ℝ)⌋ := Int.floor_le_floor h3
      _ = 255 := by norm_num
  exact Int.toNat_le.mpr h2

theorem bandColor_le (pixels : List (ℕ × ℕ × ℕ)) (mask : List ℕ) :
    (bandColor pixels mask).1 ≤ 255 ∧ (bandColor pixels mask).2.1 ≤ 255 ∧
      (bandColor pixels mask).2.2 ≤ 255 := by
  rw [bandColor]
  by_cases h : 0 < countNonZero mask
  · rw [if_pos h]
    exact ⟨clampRound_le_255 _, clampRound_le_255 _, clampRound_le_255 _⟩
  · rw [if_neg h]
    norm_num

theorem length_filter_zip (pixels : List (ℕ × ℕ × ℕ)) (mask : List ℕ)
    (hlen : mask.length = pixels.length) :
    ((pixels.zip mask).filter (fun p => decide (p.2 ≠ 0))).length = countNonZero mask := by
  induction pixels generalizing mask with
  | nil =>
    cases mask with
    | nil => simp [countNonZero]
    | cons m mt => simp at hlen
  | cons p pt ih =>
    cases mask with
    | nil => simp at hlen
    | cons m mt =>
      simp only [List.length_cons] at hlen
      rw [List.zip_cons_cons, List.filter_cons, countNonZero, List.filter_cons]
      by_cases h : m ≠ 0
      · rw [if_pos (by simpa using h), if_pos (by simpa using h), List.length_cons,
          List.length_cons, ih mt (by omega), countNonZero]
      · push_neg at h
        subst h
        rw [if_neg (by simp), if_neg (by simp), ih mt (by omega), countNonZero]

theorem maskedMean_map (pixels : List (ℕ × ℕ × ℕ)) (mask : List ℕ) (ch : ℕ × ℕ × ℕ → ℕ)
    (hlen : mask.length = pixels.length) :
    maskedMean (pixels.map (fun p => (ch p : ℝ))) mask = specMeanChannel ch pixels mask := by
  have hzip : (pixels.map (fun p => (ch p : ℝ))).zip mask =
      (pixels.zip mask).map (fun p => ((ch p.1 : ℝ), p.2)) :=
    List.zip_map_left _ _ _
  have hfil : ((pixels.zip mask).map (fun p => ((ch p.1 : ℝ), p.2))).filter
        (fun p => decide (p.2 ≠ 0)) =
      ((pixels.zip mask).filter (fun p => decide (p.2 ≠ 0))).map
        (fun p => ((ch p.1 : ℝ), p.2)) := by
    rw [List.filter_map]
    congr 1
  rw [maskedMean, specMeanChannel, hzip, hfil, selectedPixels]
  rw [List.map_map, List.map_map, List.length_map, length_filter_zip pixels mask hlen]
  rfl

theorem foldl_max_le (l : List ℝ) (a b : ℝ) (ha : a ≤ b) (hl : ∀ v ∈ l, v ≤ b) :
    l.foldl max a ≤ b := by
  induction l generalizing a with
  | nil => exact ha
  | cons x t ih =>
    rw [List.foldl_cons]
    exact ih (max a x) (max_le ha (hl x (by simp))) (fun v hv => hl v (by simp [hv]))

theorem le_foldl_max (l : List ℝ) (a : ℝ) : a ≤ l.foldl max a := by
  induction l generalizing a with
  | nil => exact le_refl a
  | cons x t ih =>
    rw [List.foldl_cons]
    exact le_trans (le_max_left a x) (ih (max a x))

theorem mem_le_foldl_max (l : List ℝ) (a v : ℝ) (hv : v ∈ l) : v ≤ l.foldl max a := by
  induction l generalizing a with
  | nil => cases hv
  | cons x t ih =>
    rw [List.foldl_cons]
    rcases List.mem_cons.mp hv with h | h
    · subst h
      exact le_trans (le_max_right a v) (le_foldl_max t (max a v))
    · exact ih (max a x) h

theorem le_foldl_min (l : List ℝ) (a b : ℝ) (ha : b ≤ a) (hl : ∀ v ∈ l, b ≤ v) :
    b ≤ l.foldl min a := by
  induction l generalizing a with
  | nil => exact ha
  | cons x t ih =>
    rw [List.foldl_cons]
    exact ih (min a x) (le_min ha (hl x (by simp))) (fun v hv => hl v (by simp [hv]))

theorem foldl_min_le (l : List ℝ) (a : ℝ) : l.foldl min a ≤ a := by
  induction l generalizing a with
  | nil => exact le_refl a
  | cons x t ih =>
    rw [List.foldl_cons]
    exact le_trans (ih (min a x)) (min_le_left a x)

theorem foldl_min_le_mem (l : List ℝ) (a v : ℝ) (hv : v ∈ l) : l.foldl min a ≤ v := by
  induction l generalizing a with
  | nil => cases hv
  | cons x t ih =>
    rw [List.foldl_cons]
    rcases List.mem_cons.mp hv with h | h
    · subst h
      exact le_trans (foldl_min_le t (min a v)) (min_le_right a v)
    · exact ih (min a x) h

theorem listMax_le (l : List ℝ) (b : ℝ) (hne : l ≠ []) (hl : ∀ v ∈ l, v ≤ b) :
    listMax l ≤ b := by
  cases l with
  | nil => exact absurd rfl hne
  | cons x t =>
    rw [listMax]
    simp only [List.headD_cons]
    exact foldl_max_le (x :: t) x b (hl x (by simp)) hl

theorem le_listMax_mem (l : List ℝ) (v : ℝ) (hv : v ∈ l) : v ≤ listMax l := by
  rw [listMax]
  exact mem_le_foldl_max l (l.headD 0) v hv

theorem le_listMin (l : List ℝ) (b : ℝ) (hne : l ≠ []) (hl : ∀ v ∈ l, b ≤ v) :
    b ≤ listMin l := by
  cases l with
  | nil => exact absurd rfl hne
  | cons x t =>
    rw [listMin]
    simp only [List.headD_cons]
    exact le_foldl_min (x :: t) x b (hl x (by simp)) hl

theorem listMin_le_mem (l : List ℝ) (v : ℝ) (hv : v ∈ l) : listMin l ≤ v := by
  rw [listMin]
  exact foldl_min_le_mem l (l.headD 0) v hv

theorem foldl_max_zero_replicate (n : ℕ) : (List.replicate n (0 : ℝ)).foldl max 0 = 0 := by
  induction n with
  | zero => rfl
  | succ k ih =>
    rw [List.replicate_succ, List.foldl_cons, max_self]
    exact ih

theorem listMax_replicate_zero (n : ℕ) : listMax (List.replicate n (0 : ℝ)) = 0 := by
  have h1 : (List.replicate n (0 : ℝ)).headD 0 = 0 := by
    cases n <;> simp [List.replicate_succ]
  rw [listMax, h1, foldl_max_zero_replicate]

theorem validMask_zero (n : ℕ) : validMask (List.replicate n (0 : ℝ)) = List.replicate n 0 := by
  rw [validMask, listMax_replicate_zero, thresholdMask, List.map_replicate]
  congr 1
  rw [if_neg (by norm_num)]

theorem countNonZero_replicate_zero (n : ℕ) : countNonZero (List.replicate n 0) = 0 := by
  induction n with
  | zero => rfl
  | succ k ih =>
    rw [List.replicate_succ, countNonZero, List.filter_cons, if_neg (by simp)]
    exact ih

theorem countNonZero_pos_of_getD (l : List ℕ) (i : ℕ) (hi : i < l.length)
    (h : l.getD i 0 ≠ 0) : 0 < countNonZero l := by
  have he : l.getD i 0 = l[i] := by
    rw [List.getD_eq_getElem?_getD, List.getElem?_eq_getElem hi]
    rfl
  rw [he] at h
  have hmem : l[i] ∈ l.filter (fun v => decide (v ≠ 0)) :=
    List.mem_filter.mpr ⟨List.getElem_mem hi, by simpa using h⟩
  rw [countNonZero]
  exact List.length_pos.mpr (List.ne_nil_of_mem hmem)

theorem exists_of_mem_gridBuf {α : Type} (rows cols : ℕ) (f : ℕ → ℕ → α) (v : α)
    (hv : v ∈ gridBuf rows cols f) : ∃ y x, y < rows ∧ x < cols ∧ v = f y x := by
  induction rows with
  | zero => simp [gridBuf] at hv
  | succ r ih =>
    rw [gridBuf_succ, List.mem_append] at hv
    rcases hv with h | h
    · obtain ⟨y, x, hy, hx, he⟩ := ih h
      exact ⟨y, x, by omega, hx, he⟩
    · rw [rowBuf, List.mem_map] at h
      obtain ⟨x, hx, he⟩ := h
      exact ⟨r, x, by omega, List.mem_range.mp hx, he.symm⟩

theorem pipelineDominant_zero (rows cols n : ℕ) (angleF : List ℝ) :
    pipelineDominant rows cols (List.replicate n (0 : ℝ)) angleF = 0 := by
  rw [pipelineDominant, validMask_zero, countNonZero_replicate_zero]
  simp only [dominantAngle]
  rw [if_pos (by norm_num)]

theorem atan2_zero_one : atan2 0 1 = 0 := by
  rw [atan2]
  have h : (⟨1, 0⟩ : ℂ) = 1 := by
    apply Complex.ext <;> simp
  rw [h, Complex.arg_one]

theorem compassFromDominant_zero : compassFromDominant 0 = 90 := by
  rw [compassFromDominant, Real.sin_zero, Real.cos_zero, neg_zero, atan2_zero_one, zero_mul,
    sub_zero, remEuclid]
  have h : ⌊(90 : ℝ) / 360⌋ = 0 := by
    rw [Int.floor_eq_zero_iff, Set.mem_Ico]
    constructor <;> norm_num
  rw [h]
  norm_num

theorem pipelineT_zero (rows cols n : ℕ) (angleF : List ℝ) :
    pipelineT rows cols (List.replicate n (0 : ℝ)) angleF = tField rows cols 1 0 := by
  rw [pipelineT, pipelineDominant_zero, Real.cos_zero, Real.sin_zero]

theorem tField_length (rows cols : ℕ) (dx dy : ℝ) :
    (tField rows cols dx dy).length = rows * cols := by
  rw [tField, gridBuf_length]

theorem tField_ne_nil (rows cols : ℕ) (hr : 0 < rows) (hc : 0 < cols) :
    tField rows cols 1 0 ≠ [] := by
  intro h
  have hl := tField_length rows cols 1 0
  rw [h] at hl
  have := Nat.mul_pos hr hc
  simp at hl
  omega

theorem listMin_tField (rows cols : ℕ) (hr : 0 < rows) (hc : 0 < cols) :
    listMin (tField rows cols 1 0) = 0 := by
  have hne := tField_ne_nil rows cols hr hc
  apply le_antisymm
  · have h0 : ((0 : ℕ) : ℝ) * 1 + ((0 : ℕ) : ℝ) * 0 ∈ tField rows cols 1 0 := by
      rw [tField]
      exact mem_gridBuf rows cols 0 0 _ hc hr
    have h0' : (0 : ℝ) ∈ tField rows cols 1 0 := by simpa using h0
    exact listMin_le_mem _ _ h0'
  · apply le_listMin _ _ hne
    intro v hv
    rw [tField] at hv
    obtain ⟨y, x, hy, hx, he⟩ := exists_of_mem_gridBuf rows cols _ v hv
    rw [he]
    positivity

theorem listMax_tField (rows cols : ℕ) (hr : 0 < rows) (hc : 0 < cols) :
    listMax (tField rows cols 1 0) = ((cols - 1 : ℕ) : ℝ) := by
  have hne := tField_ne_nil rows cols hr hc
  apply le_antisymm
  · apply listMax_le _ _ hne
    intro v hv
    rw [tField] at hv
    obtain ⟨y, x, hy, hx, he⟩ := exists_of_mem_gridBuf rows cols _ v hv
    rw [he]
    have hxle : (x : ℝ) ≤ ((cols - 1 : ℕ) : ℝ) := by
      have hx' : x ≤ cols - 1 := by omega
      exact_mod_cast hx'
    nlinarith [hxle]
  · have hm : ((cols - 1 : ℕ) : ℝ) * 1 + ((0 : ℕ) : ℝ) * 0 ∈ tField rows cols 1 0 := by
      rw [tField]
      exact mem_gridBuf rows cols (cols - 1) 0 _ (by omega) hr
    have hm' : ((cols - 1 : ℕ) : ℝ) ∈ tField rows cols 1 0 := by simpa using hm
    exact le_listMax_mem _ _ hm'

theorem startMask_zero_length (rows cols n : ℕ) (angleF : List ℝ) :
    (pipelineStartMask rows cols (List.replicate n (0 : ℝ)) angleF).length = rows * cols := by
  rw [pipelineStartMask, pipelineT_zero, lowerMask, List.length_map, tField_length]

theorem endMask_zero_length (rows cols n : ℕ) (angleF : List ℝ) :
    (pipelineEndMask rows cols (List.replicate n (0 : ℝ)) angleF).length = rows * cols := by
  rw [pipelineEndMask, pipelineT_zero, upperMask, List.length_map, tField_length]

theorem startMask_zero_pos (rows cols n : ℕ) (angleF : List ℝ) (hr : 0 < rows)
    (hc : 0 < cols) :
    0 < countNonZero (pipelineStartMask rows cols (List.replicate n (0 : ℝ)) angleF) := by
  have hidx : (0 : ℕ) * cols + 0 < (tField rows cols 1 0).length := by
    rw [tField_length]
    have := Nat.mul_pos hr hc
    omega
  have ht0 : (tField rows cols 1 0).getD (0 * cols + 0) 0 =
      ((0 : ℕ) : ℝ) * 1 + ((0 : ℕ) : ℝ) * 0 := by
    rw [tField]
    exact gridBuf_getD rows cols 0 0 _ 0 hc hr
  have hlow : (tField rows cols 1 0).getD (0 * cols + 0) 0 ≤
      lowThreshold (tField rows cols 1 0) := by
    rw [ht0, lowThreshold, listMin_tField rows cols hr hc, listMax_tField rows cols hr hc]
    have : (0 : ℝ) ≤ ((cols - 1 : ℕ) : ℝ) := Nat.cast_nonneg _
    push_cast
    nlinarith
  have hmask : (pipelineStartMask rows cols (List.replicate n (0 : ℝ)) angleF).getD
      (0 * cols + 0) 0 = 255 := by
    rw [pipelineStartMask, pipelineT_zero, lowerMask, getD_map_of_lt _ _ _ hidx 0 0,
      if_pos hlow]
  apply countNonZero_pos_of_getD _ (0 * cols + 0)
  · rw [startMask_zero_length]
    have := Nat.mul_pos hr hc
    omega
  · rw [hmask]
    norm_num

theorem endMask_zero_pos (rows cols n : ℕ) (angleF : List ℝ) (hr : 0 < rows)
    (hc : 0 < cols) :
    0 < countNonZero (pipelineEndMask rows cols (List.replicate n (0 : ℝ)) angleF) := by
  have hidx : (0 : ℕ) * cols + (cols - 1) < (tField rows cols 1 0).length := by
    rw [tField_length]
    have h1 := Nat.mul_pos hr hc
    have h2 : cols - 1 < cols := by omega
    have h3 : cols ≤ rows * cols := Nat.le_mul_of_pos_left cols hr
    omega
  have ht0 : (tField rows cols 1 0).getD (0 * cols + (cols - 1)) 0 =
      ((cols - 1 : ℕ) : ℝ) * 1 + ((0 : ℕ) : ℝ) * 0 := by
    rw [tField]
    exact gridBuf_getD rows cols (cols - 1) 0 _ 0 (by omega) hr
  have hhigh : highThreshold (tField rows cols 1 0) ≤
      (tField rows cols 1 0).getD (0 * cols + (cols - 1)) 0 := by
    rw [ht0, highThreshold, listMin_tField rows cols hr hc, listMax_tField rows cols hr hc]
    have : (0 : ℝ) ≤ ((cols - 1 : ℕ) : ℝ) := Nat.cast_nonneg _
    push_cast
    nlinarith
  have hmask : (pipelineEndMask rows cols (List.replicate n (0 : ℝ)) angleF).getD
      (0 * cols + (cols - 1)) 0 = 255 := by
    rw [pipelineEndMask, pipelineT_zero, upperMask, getD_map_of_lt _ _ _ hidx 0 0,
      if_pos hhigh]
  apply countNonZero_pos_of_getD _ (0 * cols + (cols - 1))
  · rw [endMask_zero_length]
    have h1 := Nat.mul_pos hr hc
    have h3 : cols ≤ rows * cols := Nat.le_mul_of_pos_left cols hr
    omega
  · rw [hmask]
    norm_num

theorem selected_map_replicate (mask : List ℕ) (b : ℝ) :
    (((List.replicate mask.length b).zip mask).filter (fun p => decide (p.2 ≠ 0))).map
        Prod.fst =
      List.replicate (countNonZero mask) b := by
  induction mask with
  | nil => simp [countNonZero]
  | cons m t ih =>
    rw [List.length_cons, List.replicate_succ, List.zip_cons_cons, List.filter_cons,
      countNonZero, List.filter_cons]
    by_cases h : m ≠ 0
    · rw [if_pos (by simpa using h), if_pos (by simpa using h), List.map_cons,
        List.length_cons, List.replicate_succ, ih]
      rfl
    · push_neg at h
      subst h
      rw [if_neg (by simp), if_neg (by simp), ih]
      rfl

theorem maskedMean_replicate (mask : List ℕ) (b : ℝ) (n : ℕ) (hn : mask.length = n)
    (hpos : 0 < countNonZero mask) :
    maskedMean (List.replicate n b) mask = b := by
  subst hn
  rw [maskedMean, selected_map_replicate, List.sum_replicate, nsmul_eq_mul]
  have hne : (countNonZero mask : ℝ) ≠ 0 := Nat.cast_ne_zero.mpr (by omega)
  field_simp

theorem clampRound_natCast (b : ℕ) (hb : b ≤ 255) : clampRound (b : ℝ) = b := by
  rw [clampRound]
  have h1 : min (b : ℝ) 255 = b := min_eq_left (by exact_mod_cast hb)
  have h2 : max 0 (b : ℝ) = b := max_eq_right (by positivity)
  rw [h1, h2, round_natCast, Int.toNat_natCast]

theorem bandColor_replicate (n b g r : ℕ) (mask : List ℕ) (hn : mask.length = n)
    (hb : b ≤ 255) (hg : g ≤ 255) (hr : r ≤ 255) (hpos : 0 < countNonZero mask) :
    bandColor (List.replicate n ((b : ℕ), (g : ℕ), (r : ℕ))) mask = (b, g, r) := by
  rw [bandColor, if_pos hpos, getAvgColor]
  rw [show (List.replicate n ((b : ℕ), (g : ℕ), (r : ℕ))).map (fun p => (p.1 : ℝ)) =
      List.replicate n (b : ℝ) from by rw [List.map_replicate]]
  rw [show (List.replicate n ((b : ℕ), (g : ℕ), (r : ℕ))).map (fun p => (p.2.1 : ℝ)) =
      List.replicate n (g : ℝ) from by rw [List.map_replicate]]
  rw [show (List.replicate n ((b : ℕ), (g : ℕ), (r : ℕ))).map (fun p => (p.2.2 : ℝ)) =
      List.replicate n (r : ℝ) from by rw [List.map_replicate]]
  rw [maskedMean_replicate mask _ n hn hpos, maskedMean_replicate mask _ n hn hpos,
    maskedMean_replicate mask _ n hn hpos, clampRound_natCast b hb, clampRound_natCast g hg,
    clampRound_natCast r hr]

/-! ## Claims -/

/-- C2: For every input path that does not resolve to decodable image data
(missing file, corrupt or unsupported format), `extract_gradient_hex` returns
the decode-failure error (`DecodeError`), never a default or zeroed
`GradientResult` and never a different error kind. -/
theorem C2_decode_error (p : String) (decode : String → Option DecodedImage)
    (h : decode p = none) :
    extractFront (some p) decode = Except.error ExtractError.decodeError := by
  simp [extractFront, h]

theorem C2_decode_error_witness :
    (fun _ : String => (none : Option DecodedImage)) "missing.png" = none ∧
      extractFront (some "missing.png") (fun _ => none) =
        Except.error ExtractError.decodeError :=
  ⟨rfl, C2_decode_error "missing.png" (fun _ => none) rfl⟩

/-- C3 counterexample: at input dimensions W = 3, H = 2 the working height the
source computes, `100 * 2 / 3 = 66` (truncating division), differs from the
claimed `round (100 * 2 / 3) = 67`. -/
theorem C3_counterexample :
    (0 < 3 ∧ 0 < 2) ∧ ¬(((resizeSize 3 2).2 : ℤ) = specResizeHeight 3 2) := by
  refine ⟨⟨by norm_num, by norm_num⟩, ?_⟩
  have h1 : (resizeSize 3 2).2 = 66 := by decide
  have h2 : specResizeHeight 3 2 = 67 := by
    rw [specResizeHeight]
    norm_num
    rw [round_eq]
    norm_num
  rw [h1, h2]
  decide

/-- C3 (amended): for every non-empty decoded image of dimensions W×H, the
internal working size has width exactly 100 and height exactly `⌊100·H/W⌋`
(truncating integer division), characterized by
`W * height ≤ 100 * H < W * (height + 1)`. -/
theorem C3_amended_resize (w h : ℕ) (hw : 0 < w) :
    (resizeSize w h).1 = 100 ∧
      w * (resizeSize w h).2 ≤ 100 * h ∧ 100 * h < w * ((resizeSize w h).2 + 1) := by
  refine ⟨rfl, ?_, ?_⟩
  · have h1 := Nat.div_add_mod (100 * h) w
    simp only [resizeSize]
    omega
  · have h1 := Nat.div_add_mod (100 * h) w
    have h2 := Nat.mod_lt (100 * h) hw
    have h3 : w * (100 * h / w + 1) = w * (100 * h / w) + w := Nat.mul_succ w _
    simp only [resizeSize]
    omega

theorem C3_amended_resize_witness :
    0 < 2 ∧
      ((resizeSize 2 1).1 = 100 ∧
        2 * (resizeSize 2 1).2 ≤ 100 * 1 ∧ 100 * 1 < 2 * ((resizeSize 2 1).2 + 1)) :=
  ⟨by norm_num, C3_amended_resize 2 1 (by norm_num)⟩

/-- C4: For every input on which `extract_gradient_hex` succeeds, the returned
angle lies in the half-open interval `[0, 360)`. -/
theorem C4_angle_range (rows cols : ℕ) (mag angleF : List ℝ) (pixels : List (ℕ × ℕ × ℕ)) :
    0 ≤ (extractCore rows cols mag angleF pixels).2.2 ∧
      (extractCore rows cols mag angleF pixels).2.2 < 360 := by
  have h := remEuclid_nonneg_lt
    (90 - atan2 (-Real.sin (pipelineDominant rows cols mag angleF))
        (Real.cos (pipelineDominant rows cols mag angleF)) * (180 / Real.pi))
  exact h

/-- C6: If fewer than 10 pixels pass the magnitude mask, the dominant angle is
fixed at 0; otherwise the dominant angle equals half of `atan2 avg_sin avg_cos`,
where `avg_cos` and `avg_sin` are the sums of `cos (2·angle)` and
`sin (2·angle)` over exactly the masked pixels, each divided by the masked
pixel count. -/
theorem C6_circular_mean (rows cols : ℕ) (mask : List ℕ) (angleF : List ℝ)
    (hm : mask.length = rows * cols) :
    dominantAngle rows cols (countNonZero mask) mask angleF =
      specDominantAngle rows cols mask angleF := by
  have hl := maskedIndices_length rows cols mask hm
  simp only [dominantAngle, specDominantAngle, circStats_eq, hl]
  by_cases h10 : countNonZero mask < 10
  · rw [if_pos h10, if_pos h10]
  · rw [if_neg h10, if_neg h10, if_neg (by omega)]

theorem C6_circular_mean_witness :
    ([0] : List ℕ).length = 1 * 1 ∧
      dominantAngle 1 1 (countNonZero [0]) [0] [(0 : ℝ)] =
        specDominantAngle 1 1 [0] [(0 : ℝ)] :=
  ⟨rfl, C6_circular_mean 1 1 [0] [(0 : ℝ)] rfl⟩

/-- C8: The projection field satisfies `t (x, y) = x·dx + y·dy` for every pixel
of the blurred image, using the raw `(dx, dy) = (cos d, sin d)` of the gradient
estimator; `startMask` selects exactly the pixels with `t ≤ min + 0.15·(max − min)`
and `endMask` exactly the pixels with `t ≥ max − 0.15·(max − min)`, the min and
max being taken over the whole grid. -/
theorem C8_projection (rows cols : ℕ) (mag angleF : List ℝ) (x y : ℕ)
    (hx : x < cols) (hy : y < rows) :
    (pipelineT rows cols mag angleF).getD (y * cols + x) 0 =
        (x : ℝ) * Real.cos (pipelineDominant rows cols mag angleF) +
          (y : ℝ) * Real.sin (pipelineDominant rows cols mag angleF) ∧
      ((pipelineStartMask rows cols mag angleF).getD (y * cols + x) 0 ≠ 0 ↔
        (pipelineT rows cols mag angleF).getD (y * cols + x) 0 ≤
          lowThreshold (pipelineT rows cols mag angleF)) ∧
      ((pipelineEndMask rows cols mag angleF).getD (y * cols + x) 0 ≠ 0 ↔
        highThreshold (pipelineT rows cols mag angleF) ≤
          (pipelineT rows cols mag angleF).getD (y * cols + x) 0) := by
  have hidx : y * cols + x < (pipelineT rows cols mag angleF).length := by
    rw [pipelineT, tField, gridBuf_length]
    have h := flatIdx_lt cols x y rows hx hy
    rw [flatIdx] at h
    exact h
  have ht : (pipelineT rows cols mag angleF).getD (y * cols + x) 0 =
      (x : ℝ) * Real.cos (pipelineDominant rows cols mag angleF) +
        (y : ℝ) * Real.sin (pipelineDominant rows cols mag angleF) := by
    rw [pipelineT, tField]
    exact gridBuf_getD rows cols x y _ 0 hx hy
  refine ⟨ht, ?_, ?_⟩
  · rw [pipelineStartMask, lowerMask, getD_map_of_lt _ _ _ hidx 0 0]
    exact ite_ne_zero_iff _
  · rw [pipelineEndMask, upperMask, getD_map_of_lt _ _ _ hidx 0 0]
    exact ite_ne_zero_iff _

theorem C8_projection_witness :
    0 < 1 ∧
      ((pipelineT 1 1 [(0 : ℝ)] [(0 : ℝ)]).getD (0 * 1 + 0) 0 =
          ((0 : ℕ) : ℝ) * Real.cos (pipelineDominant 1 1 [(0 : ℝ)] [(0 : ℝ)]) +
            ((0 : ℕ) : ℝ) * Real.sin (pipelineDominant 1 1 [(0 : ℝ)] [(0 : ℝ)]) ∧
        ((pipelineStartMask 1 1 [(0 : ℝ)] [(0 : ℝ)]).getD (0 * 1 + 0) 0 ≠ 0 ↔
          (pipelineT 1 1 [(0 : ℝ)] [(0 : ℝ)]).getD (0 * 1 + 0) 0 ≤
            lowThreshold (pipelineT 1 1 [(0 : ℝ)] [(0 : ℝ)])) ∧
        ((pipelineEndMask 1 1 [(0 : ℝ)] [(0 : ℝ)]).getD (0 * 1 + 0) 0 ≠ 0 ↔
          highThreshold (pipelineT 1 1 [(0 : ℝ)] [(0 : ℝ)]) ≤
            (pipelineT 1 1 [(0 : ℝ)] [(0 : ℝ)]).getD (0 * 1 + 0) 0)) :=
  ⟨by norm_num, C8_projection 1 1 [(0 : ℝ)] [(0 : ℝ)] 0 0 (by norm_num) (by norm_num)⟩

/-- C10: In the circular-mean loop and in the projection-field loop, every
flat index `y·cols + x` with `y < rows` and `x < cols` is within the bounds of
the underlying pixel buffers of length `rows·cols`, so the unchecked slice
indexing never goes out of bounds; moreover, when the circular-mean branch is
entered (at least 10 mask pixels are non-zero), the loop's masked-pixel count
is non-zero, so its `count == 0` fallback branch is unreachable. -/
theorem C10_index_safety (rows cols x y : ℕ) (mask : List ℕ) (angleF : List ℝ) (dx dy : ℝ)
    (hm : mask.length = rows * cols) (hx : x < cols) (hy : y < rows) :
    flatIdx cols x y < mask.length ∧
      flatIdx cols x y < (tField rows cols dx dy).length ∧
      (10 ≤ countNonZero mask → (circStats rows cols mask angleF).2.2 ≠ 0) := by
  refine ⟨?_, ?_, ?_⟩
  · rw [hm]
    exact flatIdx_lt cols x y rows hx hy
  · rw [tField, gridBuf_length]
    exact flatIdx_lt cols x y rows hx hy
  · intro h10
    have h2 : (circStats rows cols mask angleF).2.2 = (maskedIndices rows cols mask).length := by
      rw [circStats_eq]
    rw [h2, maskedIndices_length rows cols mask hm]
    omega

theorem C10_index_safety_witness :
    (List.replicate 10 (255 : ℕ)).length = 2 * 5 ∧ 0 < 5 ∧ 0 < 2 ∧
      (flatIdx 5 0 0 < (List.replicate 10 (255 : ℕ)).length ∧
        flatIdx 5 0 0 < (tField 2 5 0 0).length ∧
        (10 ≤ countNonZero (List.replicate 10 (255 : ℕ)) →
          (circStats 2 5 (List.replicate 10 (255 : ℕ)) []).2.2 ≠ 0)) :=
  ⟨by decide, by decide, by decide,
    C10_index_safety 2 5 0 0 (List.replicate 10 (255 : ℕ)) [] 0 0 (by decide) (by decide)
      (by decide)⟩

/-- C7: The reported angle is derived from the dominant angle by the exact
algebra `(dx, dy) = (cos d, sin d)`, then `atan2 (-dy) dx` converted to
degrees, then `90` minus that value reduced modulo `360`. -/
theorem C7_compass_algebra (rows cols : ℕ) (mag angleF : List ℝ)
    (pixels : List (ℕ × ℕ × ℕ)) :
    (extractCore rows cols mag angleF pixels).2.2 =
      specCompassAngle (pipelineDominant rows cols mag angleF) := rfl

/-- C5: For every input on which `extract_gradient_hex` succeeds, `start_color`
and `end_color` each match `^#[0-9a-f]{6}$` (a `#` followed by exactly six
lowercase hexadecimal digits), with the three channel pairs ordered red, green,
blue regardless of the image's native (b, g, r) channel storage order. -/
theorem C5_hex_format (rows cols : ℕ) (mag angleF : List ℝ) (pixels : List (ℕ × ℕ × ℕ)) :
    isHexColor (extractCore rows cols mag angleF pixels).1 = true ∧
      isHexColor (extractCore rows cols mag angleF pixels).2.1 = true ∧
      (extractCore rows cols mag angleF pixels).1 =
        "#" ++ toHex2 (startColor rows cols mag angleF pixels).2.2 ++
          toHex2 (startColor rows cols mag angleF pixels).2.1 ++
          toHex2 (startColor rows cols mag angleF pixels).1 ∧
      (extractCore rows cols mag angleF pixels).2.1 =
        "#" ++ toHex2 (endColor rows cols mag angleF pixels).2.2 ++
          toHex2 (endColor rows cols mag angleF pixels).2.1 ++
          toHex2 (endColor rows cols mag angleF pixels).1 := by
  obtain ⟨h1, h2, h3⟩ := bandColor_le pixels (pipelineStartMask rows cols mag angleF)
  obtain ⟨h4, h5, h6⟩ := bandColor_le pixels (pipelineEndMask rows cols mag angleF)
  exact ⟨isHexColor_hexColor _ _ _ h1 h2 h3, isHexColor_hexColor _ _ _ h4 h5 h6, rfl, rfl⟩

/-- C9: For each of the two band masks: if the mask selects zero pixels, the
reported color is exactly `#000000`; otherwise the color is the per-channel
arithmetic mean of the blurred image's pixels selected by the mask, with each
channel mean clamped to `[0, 255]` and rounded to the nearest integer. -/
theorem C9_band_color (pixels : List (ℕ × ℕ × ℕ)) (mask : List ℕ)
    (hlen : mask.length = pixels.length) :
    (countNonZero mask = 0 → hexColor (bandColor pixels mask) = "#000000") ∧
      (0 < countNonZero mask →
        bandColor pixels mask =
          (clampRound (specMeanChannel (fun p => p.1) pixels mask),
           clampRound (specMeanChannel (fun p => p.2.1) pixels mask),
           clampRound (specMeanChannel (fun p => p.2.2) pixels mask))) := by
  constructor
  · intro h0
    rw [bandColor, if_neg (by omega)]
    decide
  · intro hpos
    rw [bandColor, if_pos hpos, getAvgColor, maskedMean_map pixels mask _ hlen,
      maskedMean_map pixels mask _ hlen, maskedMean_map pixels mask _ hlen]

theorem C9_band_color_witness :
    ([255] : List ℕ).length = [((1 : ℕ), (2 : ℕ), (3 : ℕ))].length ∧
      ((countNonZero [255] = 0 →
          hexColor (bandColor [((1 : ℕ), (2 : ℕ), (3 : ℕ))] [255]) = "#000000") ∧
        (0 < countNonZero [255] →
          bandColor [((1 : ℕ), (2 : ℕ), (3 : ℕ))] [255] =
            (clampRound (specMeanChannel (fun p => p.1) [((1 : ℕ), (2 : ℕ), (3 : ℕ))] [255]),
             clampRound (specMeanChannel (fun p => p.2.1) [((1 : ℕ), (2 : ℕ), (3 : ℕ))] [255]),
             clampRound
               (specMeanChannel (fun p => p.2.2) [((1 : ℕ), (2 : ℕ), (3 : ℕ))] [255])))) :=
  ⟨rfl, C9_band_color [((1 : ℕ), (2 : ℕ), (3 : ℕ))] [255] rfl⟩

/-- C1 counterexample: a concrete perfectly solid-color image — solid black,
5×5, for which every linear stage (area resize, Gaussian blur, grayscale,
Sobel with zero padding) provably yields the all-zero buffer, so the magnitude
and angle fields are identically zero.  The strong-gradient count is 0 < 10 as
the claim says, yet the pipeline returns angle 90, not 0: the degenerate
dominant angle 0 is still fed through the compass conversion
`(90 − deg (atan2 0 1)) mod 360 = 90`. -/
theorem C1_counterexample :
    countNonZero (validMask (List.replicate 25 (0 : ℝ))) < 10 ∧
      (extractCore 5 5 (List.replicate 25 (0 : ℝ)) (List.replicate 25 (0 : ℝ))
          (List.replicate 25 (0, 0, 0))).2.2 = 90 ∧
      (90 : ℝ) ≠ 0 := by
  refine ⟨?_, ?_, by norm_num⟩
  · rw [validMask_zero, countNonZero_replicate_zero]
    norm_num
  · show compassFromDominant
        (pipelineDominant 5 5 (List.replicate 25 (0 : ℝ)) (List.replicate 25 (0 : ℝ))) = 90
    rw [pipelineDominant_zero, compassFromDominant_zero]

/-- C1 (amended): for every decoded solid-color image whose derivative fields
vanish (solid black does: all stages up to Sobel are linear and zero-preserving;
for a non-black solid color the zero-padded Sobel borders need not vanish), the
pipeline produces fewer than 10 strong-gradient pixels after thresholding, and
therefore the returned angle equals 90 — the compass conversion of the
degenerate dominant angle 0 — and start_color equals end_color, both equal to
the solid color exactly. -/
theorem C1_amended_solid (rows cols b g r : ℕ) (hr0 : 0 < rows) (hc0 : 0 < cols)
    (hb : b < 256) (hg : g < 256) (hrr : r < 256) :
    countNonZero (validMask (List.replicate (rows * cols) (0 : ℝ))) < 10 ∧
      extractCore rows cols (List.replicate (rows * cols) (0 : ℝ))
          (List.replicate (rows * cols) (0 : ℝ))
          (List.replicate (rows * cols) ((b : ℕ), (g : ℕ), (r : ℕ))) =
        (hexColor (b, g, r), hexColor (b, g, r), 90) := by
  constructor
  · rw [validMask_zero, countNonZero_replicate_zero]
    norm_num
  · have h1 : startColor rows cols (List.replicate (rows * cols) (0 : ℝ))
        (List.replicate (rows * cols) (0 : ℝ))
        (List.replicate (rows * cols) ((b : ℕ), (g : ℕ), (r : ℕ))) = (b, g, r) := by
      rw [startColor]
      exact bandColor_replicate (rows * cols) b g r _
        (startMask_zero_length rows cols (rows * cols) _) (by omega) (by omega) (by omega)
        (startMask_zero_pos rows cols (rows * cols) _ hr0 hc0)
    have h2 : endColor rows cols (List.replicate (rows * cols) (0 : ℝ))
        (List.replicate (rows * cols) (0 : ℝ))
        (List.replicate (rows * cols) ((b : ℕ), (g : ℕ), (r : ℕ))) = (b, g, r) := by
      rw [endColor]
      exact bandColor_replicate (rows * cols) b g r _
        (endMask_zero_length rows cols (rows * cols) _) (by omega) (by omega) (by omega)
        (endMask_zero_pos rows cols (rows * cols) _ hr0 hc0)
    have h3 : compassFromDominant (pipelineDominant rows cols
        (List.replicate (rows * cols) (0 : ℝ)) (List.replicate (rows * cols) (0 : ℝ))) = 90 := by
      rw [pipelineDominant_zero, compassFromDominant_zero]
    rw [extractCore, h1, h2, h3]

theorem C1_amended_solid_witness :
    (0 < 1 ∧ 0 < 1 ∧ 7 < 256 ∧ 8 < 256 ∧ 9 < 256) ∧
      (countNonZero (validMask (List.replicate (1 * 1) (0 : ℝ))) < 10 ∧
        extractCore 1 1 (List.replicate (1 * 1) (0 : ℝ)) (List.replicate (1 * 1) (0 : ℝ))
            (List.replicate (1 * 1) ((7 : ℕ), (8 : ℕ), (9 : ℕ))) =
          (hexColor (7, 8, 9), hexColor (7, 8, 9), 90)) :=
  ⟨⟨by norm_num, by norm_num, by norm_num, by norm_num, by norm_num⟩,
    C1_amended_solid 1 1 7 8 9 (by norm_num) (by norm_num) (by norm_num) (by norm_num)
      (by norm_num)⟩

end GradientGen
